import Mathlib

/-!
Verification development for the Sonar_rules scraper repository.

The repository consists of four Python scripts that harvest rule catalogs
from static-analysis documentation sites:

* `sonar_rule_scraper.py` — async scraper for Sonar rules (semaphore-bounded
  fetching, paginated link discovery, resume from a JSON file, periodic and
  final saves through a temp-file-plus-rename discipline);
* `pmd_test.py` — async PMD ruleset scraper (index discovery with a static
  fallback list, semaphore-bounded per-ruleset fetching);
* `c.py` — sequential Checkstyle scraper for one category;
* `check.py` — thread-pool Checkstyle scraper over all categories.

This file gives a shallow embedding of the data model and the operations of
those scripts and proves (or refutes) the frozen specification claims about
them.  HTML selector heuristics are abstracted: a "soup" is modelled as the
record of the selector results the code consumes, and where a parse function
is page-shape-specific it is taken as a parameter.  String-level operations
(strip, capitalize, regex searches used by the code) are embedded concretely.
-/

namespace PyStr

/-- Python `str.strip()` on the left: drop leading whitespace characters. -/
def dropWs (l : List Char) : List Char := l.dropWhile Char.isWhitespace

/-- Python `str.strip()`: drop whitespace from both ends of a character list. -/
def pstripChars (l : List Char) : List Char :=
  ((dropWs l).reverse.dropWhile Char.isWhitespace).reverse

/-- Python `str.strip()` lifted to `String`. -/
def pstripStr (s : String) : String := String.mk (pstripChars s.toList)

/-- Python `str.lower()` (ASCII behaviour, which is all the code feeds it). -/
def lowerStr (s : String) : String := String.mk (s.toList.map Char.toLower)

/-- Python `str.capitalize()`: first character upper-cased, rest lower-cased. -/
def pcapitalize (s : String) : String :=
  match s.toList with
  | [] => ""
  | c :: t => String.mk (c.toUpper :: t.map Char.toLower)

/-- Membership test for a substring, as Python `needle in hay`. -/
def containsSub (n : List Char) : List Char → Bool
  | [] => n.isEmpty
  | c :: t => n.isPrefixOf (c :: t) || containsSub n t

end PyStr

namespace Dedup

/-- First index of an element in a list (length of the list if absent);
mirrors Python's first-occurrence position. -/
def idxOf : List String → String → Nat
  | [], _ => 0
  | a :: t, x => if a = x then 0 else idxOf t x + 1

/-- The seen-set deduplication loop used by both link discoverers:
walk the list, keep an element only the first time it appears.
`seen` is the set of already-emitted elements. -/
def dedupAux : List String → List String → List String
  | _, [] => []
  | seen, x :: xs =>
    if x ∈ seen then dedupAux seen xs else x :: dedupAux (x :: seen) xs

/-- Deduplicate keeping the first occurrence of each element
(the `seen = set(); out = []` loop in the source). -/
def dedupFirst (l : List String) : List String := dedupAux [] l

theorem mem_dedupAux (seen l : List String) (y : String) :
    y ∈ dedupAux seen l ↔ y ∈ l ∧ y ∉ seen := by
  induction l generalizing seen with
  | nil => simp [dedupAux]
  | cons x xs ih =>
    by_cases hx : x ∈ seen
    · simp only [dedupAux, if_pos hx, ih, List.mem_cons]
      constructor
      · rintro ⟨hy, hns⟩; exact ⟨Or.inr hy, hns⟩
      · rintro ⟨hy | hy, hns⟩
        · subst hy; exact absurd hx hns
        · exact ⟨hy, hns⟩
    · simp only [dedupAux, if_neg hx, List.mem_cons, ih]
      constructor
      · rintro (rfl | ⟨hy, hns⟩)
        · exact ⟨Or.inl rfl, hx⟩
        · exact ⟨Or.inr hy, fun hc => hns (Or.inr hc)⟩
      · rintro ⟨hmem, hns⟩
        by_cases hyx : y = x
        · exact Or.inl hyx
        · rcases hmem with rfl | hy
          · exact Or.inl rfl
          · exact Or.inr ⟨hy, fun hc => hc.elim hyx hns⟩

theorem nodup_dedupAux (seen l : List String) : (dedupAux seen l).Nodup := by
  induction l generalizing seen with
  | nil => simp [dedupAux]
  | cons x xs ih =>
    by_cases hx : x ∈ seen
    · simpa [dedupAux, if_pos hx] using ih seen
    · simp only [dedupAux, if_neg hx]
      refine List.nodup_cons.mpr ⟨fun hc => ?_, ih (x :: seen)⟩
      exact ((mem_dedupAux _ _ _).mp hc).2 (by simp)

theorem nodup_dedupFirst (l : List String) : (dedupFirst l).Nodup :=
  nodup_dedupAux [] l

theorem mem_dedupFirst (l : List String) (y : String) :
    y ∈ dedupFirst l ↔ y ∈ l := by
  simp [dedupFirst, mem_dedupAux]

theorem idxOf_cons_ne (t : List String) (a x : String) (h : x ≠ a) :
    idxOf (x :: t) a = idxOf t a + 1 := by
  simp [idxOf, h]

theorem pairwise_dedupAux (seen l : List String) :
    (dedupAux seen l).Pairwise (fun a b => idxOf l a < idxOf l b) := by
  induction l generalizing seen with
  | nil => simp [dedupAux]
  | cons x xs ih =>
    by_cases hx : x ∈ seen
    · simp only [dedupAux, if_pos hx]
      refine ((ih seen).imp_of_mem ?_)
      intro a b ha hb hab
      have hax : a ≠ x := fun h => ((mem_dedupAux seen xs a).mp ha).2 (h ▸ hx)
      have hbx : b ≠ x := fun h => ((mem_dedupAux seen xs b).mp hb).2 (h ▸ hx)
      rw [idxOf_cons_ne xs a x (Ne.symm hax), idxOf_cons_ne xs b x (Ne.symm hbx)]
      omega
    · simp only [dedupAux, if_neg hx]
      refine List.pairwise_cons.mpr ⟨?_, ?_⟩
      · intro b hb
        have hbx : b ≠ x := fun h =>
          ((mem_dedupAux (x :: seen) xs b).mp hb).2 (by simp [h])
        have h0 : idxOf (x :: xs) x = 0 := by simp [idxOf]
        rw [h0, idxOf_cons_ne xs b x (Ne.symm hbx)]
        omega
      · refine ((ih (x :: seen)).imp_of_mem ?_)
        intro a b ha hb hab
        have hax : a ≠ x := fun h =>
          ((mem_dedupAux (x :: seen) xs a).mp ha).2 (by simp [h])
        have hbx : b ≠ x := fun h =>
          ((mem_dedupAux (x :: seen) xs b).mp hb).2 (by simp [h])
        rw [idxOf_cons_ne xs a x (Ne.symm hax), idxOf_cons_ne xs b x (Ne.symm hbx)]
        omega

theorem pairwise_dedupFirst (l : List String) :
    (dedupFirst l).Pairwise (fun a b => idxOf l a < idxOf l b) :=
  pairwise_dedupAux [] l

end Dedup

namespace Store

/-!
Model of the persistence operations.

`sonar_rule_scraper.py` `SonarRuleScraper._save` writes the serialized batch
to `path + ".tmp"` in chunks and then calls `os.replace(tmp, path)`.
`c.py` `CheckstyleScraper.scrape` and the `__main__` block of `check.py`
open the target path directly with `open(path, "w")` (truncating it) and
stream `json.dump` chunks into it.

A file's content is modelled as the list of chunks written since the last
truncation; the observable byte content is their concatenation.
-/

/-- One primitive I/O step of a save operation. -/
inductive SaveStep
  | openTmp
  | writeTmp (s : String)
  | renameTmp
  | openTarget
  | writeTarget (s : String)

/-- File-system state: chunk lists of the target path and of the temp path. -/
structure FS where
  target : List String
  tmp : List String

/-- Effect of one primitive step on the file system. -/
def applyStep (fs : FS) : SaveStep → FS
  | SaveStep.openTmp => FS.mk fs.target []
  | SaveStep.writeTmp s => FS.mk fs.target (fs.tmp ++ [s])
  | SaveStep.renameTmp => FS.mk fs.tmp []
  | SaveStep.openTarget => FS.mk [] fs.tmp
  | SaveStep.writeTarget s => FS.mk (fs.target ++ [s]) fs.tmp

/-- Run a sequence of save steps. -/
def runSteps (fs : FS) (steps : List SaveStep) : FS := steps.foldl applyStep fs

/-- Byte content of a chunk list. -/
def content (l : List String) : List Char := l.foldr (fun s acc => s.toList ++ acc) []

/-- The step sequence of `SonarRuleScraper._save`: open the temp file,
write the serialized data (as a sequence of chunks), atomically rename. -/
def sonarSaveSteps (chunks : List String) : List SaveStep :=
  SaveStep.openTmp :: (chunks.map SaveStep.writeTmp ++ [SaveStep.renameTmp])

/-- The step sequence of the final writes in `c.py` (`scrape`, lines 170-172)
and `check.py` (`__main__`, lines 249-255): open the target path directly,
truncating it, then write the serialized data in chunks. -/
def directSaveSteps (chunks : List String) : List SaveStep :=
  SaveStep.openTarget :: chunks.map SaveStep.writeTarget

/-- A save is atomic for old content `old` and new content `newC` when, after
every prefix of its steps (every interruption point), the target path holds
either the complete old content or the complete new content. -/
def AtomicSave (steps : List SaveStep) (old : String) (newC : List Char) : Prop :=
  ∀ k : Nat,
    content ((runSteps (FS.mk [old] []) (steps.take k)).target) = old.toList ∨
    content ((runSteps (FS.mk [old] []) (steps.take k)).target) = newC

theorem runSteps_writeTmp_map (chunks : List String) (fs : FS) :
    runSteps fs (chunks.map SaveStep.writeTmp) =
      FS.mk fs.target (fs.tmp ++ chunks) := by
  induction chunks generalizing fs with
  | nil => simp [runSteps]
  | cons c t ih =>
    simp only [List.map_cons, runSteps, List.foldl_cons]
    have := ih (applyStep fs (SaveStep.writeTmp c))
    simp only [runSteps] at this
    rw [this]
    simp [applyStep]

theorem runSteps_writeTmp_take (chunks : List String) (fs : FS) (k : Nat) :
    (runSteps fs ((chunks.map SaveStep.writeTmp).take k)).target = fs.target := by
  induction chunks generalizing fs k with
  | nil => simp [runSteps]
  | cons c t ih =>
    cases k with
    | zero => simp [runSteps]
    | succ j =>
      simp only [List.map_cons, List.take_succ_cons, runSteps, List.foldl_cons]
      have := ih (applyStep fs (SaveStep.writeTmp c)) j
      simp only [runSteps] at this
      rw [this]
      simp [applyStep]

theorem sonar_save_atomic (chunks : List String) (old : String) :
    AtomicSave (sonarSaveSteps chunks) old (content chunks) := by
  intro k
  cases k with
  | zero =>
    left
    simp [runSteps, content, sonarSaveSteps]
  | succ j =>
    simp only [sonarSaveSteps, List.take_succ_cons, runSteps, List.foldl_cons]
    by_cases hj : j ≤ chunks.length
    · left
      have htk : ((chunks.map SaveStep.writeTmp ++ [SaveStep.renameTmp]).take j)
          = (chunks.map SaveStep.writeTmp).take j := by
        rw [List.take_append_of_le_length (by simpa using hj)]
      rw [htk]
      have := runSteps_writeTmp_take chunks (applyStep (FS.mk [old] []) SaveStep.openTmp) j
      simp only [runSteps] at this
      rw [this]
      simp [applyStep, content]
    · right
      push_neg at hj
      have htk : ((chunks.map SaveStep.writeTmp ++ [SaveStep.renameTmp]).take j)
          = chunks.map SaveStep.writeTmp ++ [SaveStep.renameTmp] := by
        apply List.take_of_length_le
        simp
        omega
      rw [htk]
      have hrun := runSteps_writeTmp_map chunks (applyStep (FS.mk [old] []) SaveStep.openTmp)
      simp only [runSteps] at hrun ⊢
      rw [List.foldl_append, hrun]
      simp [applyStep]

theorem sonar_save_final (chunks : List String) (old : String) :
    content ((runSteps (FS.mk [old] []) (sonarSaveSteps chunks)).target) =
      content chunks := by
  simp only [sonarSaveSteps, runSteps, List.foldl_cons]
  have hrun := runSteps_writeTmp_map chunks (applyStep (FS.mk [old] []) SaveStep.openTmp)
  simp only [runSteps] at hrun ⊢
  rw [List.foldl_append, hrun]
  simp [applyStep]

end Store

namespace Fetch

/-!
Model of the three page-fetch operations with Python's exception flow made
explicit: `Except PyExn r` is the result of a block that can raise.

* `pmd_test.py` `fetch` (lines 85-96): `try: session.get(...)`;
  `except asyncio.TimeoutError` and `except Exception` both fall through to
  `return None`; non-200 statuses return `None`.
* `sonar_rule_scraper.py` `SonarRuleScraper._fetch` (lines 221-234): same
  shape, with `except` clauses returning `None` directly.
* `c.py` / `check.py` `fetch_soup` (lines 44-52 / 69-77): `requests.get`
  inside `try`, status 200 returns the soup, everything else reaches the
  final `return None`.
-/

/-- Python exceptions that the HTTP call can raise. -/
inductive PyExn
  | timeout
  | connError
  | other

/-- Outcome of the underlying HTTP call: a response, or a raised exception. -/
inductive NetOutcome
  | resp (status : Nat) (body : String)
  | raised (e : PyExn)

/-- The raw `session.get(url)` / `requests.get(url)` call: returns a
status/body pair or raises. -/
def httpGet : NetOutcome → Except PyExn (Nat × String)
  | NetOutcome.resp s b => Except.ok (s, b)
  | NetOutcome.raised e => Except.error e

/-- Model of `pmd_test.py` `fetch`: returns the page text on HTTP 200, `none` on any
other status, timeout, or exception; the result is `Except.ok` when no
exception escapes the function. -/
def pmdFetch (o : NetOutcome) : Except PyExn (Option String) :=
  match httpGet o with
  | Except.ok sb => if sb.1 = 200 then Except.ok (some sb.2) else Except.ok none
  | Except.error PyExn.timeout => Except.ok none
  | Except.error _ => Except.ok none

/-- Model of `sonar_rule_scraper.py` `SonarRuleScraper._fetch`: same contract
(the semaphore acquisition around the call is modelled in `Sem`). -/
def sonarFetch (o : NetOutcome) : Except PyExn (Option String) :=
  match httpGet o with
  | Except.ok sb => if sb.1 = 200 then Except.ok (some sb.2) else Except.ok none
  | Except.error PyExn.timeout => Except.ok none
  | Except.error _ => Except.ok none

/-- Model of `c.py` / `check.py` `fetch_soup`, with the page-to-soup conversion
abstracted as `soupOf`: status 200 yields the parsed soup, every other
outcome reaches `return None`. -/
def fetchSoup {Soup : Type} (soupOf : String → Soup) (o : NetOutcome) :
    Except PyExn (Option Soup) :=
  match httpGet o with
  | Except.ok sb => if sb.1 = 200 then Except.ok (some (soupOf sb.2)) else Except.ok none
  | Except.error _ => Except.ok none

end Fetch

namespace CheckC

/-!
Model of `c.py` (single-category Checkstyle scraper) and `check.py`
(all-categories, thread-pool variant).  The per-rule extraction heuristics
are abstracted: the outcome of `extract_rule_details` for one index link is a
parameter `details : String × String → Option CRule` (a link is the
`(rule_url, rule_name)` pair collected from the index page's `td > a` tags;
`none` models a failed fetch of the rule page).
-/

/-- A parsed Checkstyle rule record (fields as built by
`extract_rule_details`; exact field contents are irrelevant to the claims,
the record is kept opaque up to its title). -/
structure CRule where
  title : String

/-- The per-category JSON document built by `c.py` `scrape` (lines 164-168):
`checks` is the capitalized category, `total_rules` is `len(rules_data)`,
`rules` is `rules_data` itself. -/
structure CFinal where
  checks : String
  total_rules : Nat
  rules : List CRule

/-- Document builder of `c.py` lines 164-168. -/
def cFinalJson (category : String) (rules_data : List CRule) : CFinal :=
  CFinal.mk (PyStr.pcapitalize category) rules_data.length rules_data

/-- The per-category JSON document built by `check.py` `scrape`
(lines 204-208): `category`, `total_rules = len(rules)`, `rules`. -/
structure CheckFinal where
  category : String
  total_rules : Nat
  rules : List CRule

/-- Document builder of `check.py` lines 204-208; `rules` is the list collected from the worker
futures, in completion order. -/
def checkFinalJson (category : String) (rules : List CRule) : CheckFinal :=
  CheckFinal.mk (PyStr.pcapitalize category) rules.length rules

/-- Model of `c.py` `scrape`: if the index page cannot be loaded the method logs an
error and returns `{}` (modelled as `none`); otherwise it extracts details
for every index link and builds the final document from the successes. -/
def cScrape (category : String) (index : Option (List (String × String)))
    (details : String × String → Option CRule) : Option CFinal :=
  match index with
  | none => none
  | some links => some (cFinalJson category (links.filterMap details))

/-- Result of running `c.py` as a process: its exit code and the value
`scrape` returned.  The script never calls `sys.exit`, so the interpreter
terminates with code 0 on every path through `scrape`. -/
structure CRun where
  exitCode : Nat
  output : Option CFinal

/-- The `__main__` block of `c.py`: run `scrape` and terminate normally. -/
def cMain (category : String) (index : Option (List (String × String)))
    (details : String × String → Option CRule) : CRun :=
  CRun.mk 0 (cScrape category index details)

end CheckC

namespace Pmd

/-!
Model of `pmd_test.py`.  An index page's soup is modelled by the result of
`soup.select_one("#toc")`: `none` when no TOC element exists, otherwise the
list of its anchors as `(href, text)` pairs.  The per-ruleset page parse
(`parse_ruleset_page`) is page-shape heuristics and is abstracted: the
combined fetch-and-parse outcome for a ruleset name is a parameter
`rsResult : String → Option (List PmdRule)` (`none` = the ruleset page
fetch returned no HTML).
-/

/-- A parsed PMD rule (fields as returned by `parse_rule_block`). -/
structure PmdRule where
  title : String
  since : String
  priority : String
  description : String
  examples : String

/-- The static fallback list of ruleset names (`FALLBACK_RULESETS`). -/
def FALLBACK_RULESETS : List String :=
  ["bestpractices", "codestyle", "design", "documentation",
   "errorprone", "performance", "security", "multithreading"]

/-- Embedding of `re.sub` removing non-alphanumerics, then `.lower()`. -/
def alnumLower (s : String) : String :=
  String.mk ((s.toList.filter Char.isAlphanum).map Char.toLower)

/-- Model of `normalize_ruleset_label_from_href`: empty href gives `""`, otherwise
strip leading `#`, strip whitespace, keep alphanumerics, lower-case. -/
def normalizeFromHref (href : String) : String :=
  if href = "" then ""
  else alnumLower (String.mk (PyStr.pstripChars (href.toList.dropWhile (· = '#'))))

/-- Model of `normalize_ruleset_label_from_text`. -/
def normalizeFromText (text : String) : String :=
  if text = "" then "" else alnumLower text

/-- The anchor is skipped when `"additional"` occurs in the lower-cased
concatenation of href and text. -/
def keepAnchor (a : String × String) : Bool :=
  !(PyStr.containsSub "additional".toList ((a.1 ++ a.2).toList.map Char.toLower))

/-- The sequence of normalized labels collected by the loop body of
`parse_index_for_rulesets`, before deduplication. -/
def foundOf (anchors : List (String × String)) : List String :=
  (anchors.filter keepAnchor).filterMap (fun a =>
    let nh := normalizeFromHref a.1
    let n := if nh = "" then normalizeFromText a.2 else nh
    if n = "" then none else some n)

/-- Model of `parse_index_for_rulesets` (lines 101-127): no TOC yields `[]`,
otherwise collect normalized labels and deduplicate preserving first-seen
order. -/
def parseIndexForRulesets (toc : Option (List (String × String))) : List String :=
  match toc with
  | none => []
  | some anchors => Dedup.dedupFirst (foundOf anchors)

/-- The ruleset-detection block of `scrape_language` (lines 279-287): a
missing index page, or an index page from which zero rulesets are
extracted, falls back to the static list. -/
def detectedOf (index : Option (Option (List (String × String)))) : List String :=
  match index with
  | none => FALLBACK_RULESETS
  | some toc =>
    let d := parseIndexForRulesets toc
    if d = [] then FALLBACK_RULESETS else d

/-- Python `dict.setdefault(k, v)` on an association list. -/
def setdefault (m : List (String × List PmdRule)) (k : String)
    (v : List PmdRule) : List (String × List PmdRule) :=
  if k ∈ m.map Prod.fst then m else m ++ [(k, v)]

/-- The output document of `scrape_language` (lines 271-312): one entry per
detected ruleset (an unfetchable ruleset page contributes an empty list),
then `setdefault` ensures every fallback key is present. -/
structure PmdOut where
  language : String
  rulesets : List (String × List PmdRule)

/-- Model of `scrape_language`. -/
def scrapeLanguage (language : String)
    (index : Option (Option (List (String × String))))
    (rsResult : String → Option (List PmdRule)) : PmdOut :=
  let detected := detectedOf index
  let filled := detected.map (fun rs =>
    (rs, match rsResult rs with
         | none => []
         | some rules => rules))
  PmdOut.mk language (FALLBACK_RULESETS.foldl (fun m rs => setdefault m rs []) filled)

/-- Result of running `pmd_test.py` as a process. -/
structure PmdRun where
  exitCode : Nat
  diag : Bool
  output : Option PmdOut

/-- Normalization `language = sys.argv[1].strip().lower()`. -/
def normLang (arg : String) : String := PyStr.lowerStr (PyStr.pstripStr arg)

/-- Model of `main` (lines 317-343): an empty normalized language prints a diagnostic
and exits with code 1; otherwise the scrape runs, the JSON is written and
the process terminates with code 0 regardless of per-item outcomes. -/
def pmdMain (arg : String) (index : Option (Option (List (String × String))))
    (rsResult : String → Option (List PmdRule)) : PmdRun :=
  let language := normLang arg
  if language = "" then PmdRun.mk 1 true none
  else PmdRun.mk 0 false (some (scrapeLanguage language index rsResult))

theorem mem_keys_setdefault (m : List (String × List PmdRule)) (k k' : String)
    (v : List PmdRule) (h : k ∈ m.map Prod.fst) :
    k ∈ (setdefault m k' v).map Prod.fst := by
  unfold setdefault
  split
  · exact h
  · simpa using Or.inl h

theorem mem_keys_setdefault_self (m : List (String × List PmdRule)) (k : String)
    (v : List PmdRule) : k ∈ (setdefault m k v).map Prod.fst := by
  unfold setdefault
  split
  · assumption
  · simp

theorem mem_keys_foldl_setdefault (ks : List String)
    (m : List (String × List PmdRule)) (k : String)
    (h : k ∈ m.map Prod.fst ∨ k ∈ ks) :
    k ∈ (ks.foldl (fun m rs => setdefault m rs []) m).map Prod.fst := by
  induction ks generalizing m with
  | nil =>
    rcases h with h | h
    · simpa using h
    · simp at h
  | cons a t ih =>
    simp only [List.foldl_cons]
    rcases h with h | h
    · exact ih (setdefault m a []) (Or.inl (mem_keys_setdefault m k a [] h))
    · rcases List.mem_cons.mp h with rfl | h
      · exact ih (setdefault m k []) (Or.inl (mem_keys_setdefault_self m k []))
      · exact ih (setdefault m a []) (Or.inr h)

end Pmd

namespace Sonar

/-!
Model of `sonar_rule_scraper.py` (the lower, active `SonarRuleScraper`
class).  A rule page's soup is modelled by the selector results
`_parse_rule_html` consumes; the conversion from raw HTML to that soup is
an abstract parameter `soupOf`.  String/regex manipulation on URL paths is
embedded concretely.
-/

/-- Constant `SonarRuleScraper.BASE`. -/
def SBASE : String := "https://rules.sonarsource.com"

/-- Match of `re.search(r"RSPEC-\d+", ...)` anchored at the head of the
list: the literal `RSPEC-` followed by a maximal non-empty digit run. -/
def rspecAt (l : List Char) : Option (List Char) :=
  if "RSPEC-".toList.isPrefixOf l then
    let ds := (l.drop 6).takeWhile Char.isDigit
    if ds.isEmpty then none else some ("RSPEC-".toList ++ ds)
  else none

/-- Embedding of `re.search(r"RSPEC-\d+", path)`: first match scanning left to right. -/
def rspecSearch : List Char → Option (List Char)
  | [] => none
  | c :: rest =>
    match rspecAt (c :: rest) with
    | some m => some m
    | none => rspecSearch rest

/-- Python `path.strip("/")`. -/
def stripSlashes (l : List Char) : List Char :=
  ((l.dropWhile (· = '/')).reverse.dropWhile (· = '/')).reverse

/-- Python `s.split("/")[-1]` for a string with no trailing `/`: the characters
after the last slash. -/
def lastSegment (l : List Char) : List Char :=
  (l.reverse.takeWhile (fun c => decide (c ≠ '/'))).reverse

/-- The `rule_id` computation of `_parse_rule_html` (lines 281-282): the
regex match if any, else `url_path.strip("/").split("/")[-1]`. -/
def ruleIdChars (path : List Char) : List Char :=
  match rspecSearch path with
  | some m => m
  | none => lastSegment (stripSlashes path)

/-- Selector results consumed by `_parse_rule_html`: the `h1` text (if an
`h1` exists), the stripped texts of the description paragraphs and of the
styled-tab paragraphs, the rule-type element's text (if the element
exists), and the stripped texts of the impact containers. -/
structure SonarSoup where
  h1Text : Option String
  descParts : List String
  styledParts : List String
  ruleTypeText : Option String
  impactTexts : List String

/-- The record built by `_parse_rule_html` (lines 310-317). -/
structure SRecord where
  rule_id : String
  url : String
  title : String
  description : String
  rule_type : String
  impact : List String

/-- Model of `_parse_rule_html` (lines 276-317). -/
def parseRuleHtml (soup : SonarSoup) (path : String) : SRecord :=
  let rid := String.mk (ruleIdChars path.toList)
  let title := match soup.h1Text with
    | none => ""
    | some s => s
  let desc0 := PyStr.pstripStr (String.intercalate " " (soup.descParts ++ soup.styledParts))
  let description := if desc0 = "" then "Description not available." else desc0
  let rtype := match soup.ruleTypeText with
    | none => "Unknown"
    | some s => if s = "" then "Unknown" else s
  let imps := Dedup.dedupFirst
    ((soup.impactTexts.filter (fun t => decide (t ≠ ""))).map PyStr.pcapitalize)
  let impact := if imps = [] then ["Unspecified"] else imps
  SRecord.mk rid (SBASE ++ path) title description rtype impact

/-- JSON-ish value, to model the Python dict literal the parser returns. -/
inductive JVal
  | s (v : String)
  | arr (v : List String)

/-- The dict literal returned by `_parse_rule_html` as a key/value list;
Python's truthiness test `if parsed:` on a dict checks this list is
non-empty. -/
def dictFields (r : SRecord) : List (String × JVal) :=
  [("rule_id", JVal.s r.rule_id), ("url", JVal.s r.url),
   ("title", JVal.s r.title), ("description", JVal.s r.description),
   ("rule_type", JVal.s r.rule_type), ("impact", JVal.arr r.impact)]

/-- Outcome of `process_one` (lines 319-335) with its two skip branches
distinguished: `fetchSkip` is the `if not html` branch, `parseSkip` is the
`else` branch of `if parsed:`. -/
inductive POut
  | fetchSkip
  | parseSkip
  | ok (r : SRecord)

/-- Model of `process_one`, with the fetched HTML (or `None`) passed in. -/
def processOneB (soupOf : String → SonarSoup) (htmlOpt : Option String)
    (path : String) : POut :=
  match htmlOpt with
  | none => POut.fetchSkip
  | some h =>
    if h = "" then POut.fetchSkip
    else
      let parsed := parseRuleHtml (soupOf h) path
      if (dictFields parsed).isEmpty then POut.parseSkip else POut.ok parsed

/-- Model of `process_one` as seen by the caller: the appended record, or `none`. -/
def processOne (soupOf : String → SonarSoup) (htmlOpt : Option String)
    (path : String) : Option SRecord :=
  match processOneB soupOf htmlOpt path with
  | POut.ok r => some r
  | _ => none

/-- The pending computation of `run` (line 357): discovered paths whose full
URL is not among the loaded records' `url` fields. -/
def pendingOf (links : List String) (loaded : List SRecord) : List String :=
  links.filter (fun u => decide ((SBASE ++ u) ∉ loaded.map SRecord.url))

/-- One harvest pass of `run` (lines 337-380) as a function of the fetch
outcomes: resume with `loaded` records, process every pending path, append
the successes.  (Tasks are dispatched concurrently in the source; the
appended order is completion order, which the idempotence claims do not
depend on since a resumed run over unchanged inputs appends nothing.) -/
def runModel (soupOf : String → SonarSoup) (fetch : String → Option String)
    (links : List String) (loaded : List SRecord) : List SRecord :=
  loaded ++ (pendingOf links loaded).filterMap
    (fun u => processOne soupOf (fetch (SBASE ++ u)) u)

/-- Serialization of the results list by `_save` (`json.dump`). -/
def jsonOfRecord (r : SRecord) : String :=
  "\x7b\x22rule_id\x22: \x22" ++ r.rule_id ++ "\x22, \x22url\x22: \x22" ++ r.url ++
  "\x22, \x22title\x22: \x22" ++ r.title ++ "\x22, \x22description\x22: \x22" ++
  r.description ++ "\x22, \x22rule_type\x22: \x22" ++ r.rule_type ++
  "\x22, \x22impact\x22: [" ++ String.intercalate ", " (r.impact.map (fun i => "\x22" ++ i ++ "\x22")) ++ "]\x7d"

/-- Serialization of the whole results file. -/
def jsonOfResults (rs : List SRecord) : String :=
  "[" ++ String.intercalate ", " (rs.map jsonOfRecord) ++ "]"

/-- Embedding of `full = href if href.startswith("http") else BASE + href`. -/
def fullOf (h : String) : String :=
  if "http".toList.isPrefixOf h.toList then h else SBASE ++ h

/-- The inner loop of `get_rule_links` over one listing page's hrefs:
returns the updated seen set and the new full URLs found, in page order.
An href is taken when it is truthy (non-empty) and not yet seen. -/
def collectNew : List String → List String → List String × List String
  | seen, [] => (seen, [])
  | seen, h :: t =>
    if h ≠ "" ∧ h ∉ seen then
      let r := collectNew (h :: seen) t
      (r.1, fullOf h :: r.2)
    else collectNew seen t

/-- The pagination loop of `get_rule_links` (lines 242-269): page `N` is the
`N`-th entry of `pages` (`none` = fetch failed / no response).  The trace
lists, per successfully fetched page, the new links found there; the loop
stops after a page with fewer than 10 new links (including zero) or on a
failed fetch. -/
def goTrace : List (Option (List String)) → List String → List (List String)
  | [], _ => []
  | none :: _, _ => []
  | some hrefs :: rest, seen =>
    let p := collectNew seen hrefs
    if p.2.length < 10 then [p.2]
    else p.2 :: goTrace rest p.1

/-- Fetch result of page index `n` (page number `n + 1`). -/
def fetchRes : List (Option (List String)) → Nat → Option (List String)
  | [], _ => none
  | p :: _, 0 => p
  | _ :: rest, n + 1 => fetchRes rest n

/-- Embedding of `re.sub(r"^https?://[^/]+", "", u)`: strip scheme and host when the URL
starts with `http://` or `https://` followed by at least one non-slash
character. -/
def stripDomainChars (u : List Char) : List Char :=
  let afterScheme : Option (List Char) :=
    if "https://".toList.isPrefixOf u then some (u.drop 8)
    else if "http://".toList.isPrefixOf u then some (u.drop 7)
    else none
  match afterScheme with
  | none => u
  | some r =>
    match r with
    | [] => u
    | c :: _ => if c = '/' then u else r.dropWhile (fun d => decide (d ≠ '/'))

/-- String version of `stripDomainChars`. -/
def stripDomainStr (u : String) : String := String.mk (stripDomainChars u.toList)

/-- Lexicographic comparison of character lists by code point — the string
order Python's `sorted` uses. -/
def lexLe : List Char → List Char → Bool
  | [], _ => true
  | _ :: _, [] => false
  | a :: as, b :: bs =>
    if a.toNat < b.toNat then true
    else if b.toNat < a.toNat then false
    else lexLe as bs

/-- Python's string order on `String`. -/
def strLe (a b : String) : Bool := lexLe a.toList b.toList

theorem lexLe_total : ∀ a b : List Char, lexLe a b = true ∨ lexLe b a = true := by
  intro a
  induction a with
  | nil => intro b; left; rfl
  | cons x as ih =>
    intro b
    cases b with
    | nil => right; rfl
    | cons y bs =>
      rcases Nat.lt_trichotomy x.toNat y.toNat with h | h | h
      · left
        simp [lexLe, h]
      · have hnx : ¬ x.toNat < y.toNat := by omega
        have hny : ¬ y.toNat < x.toNat := by omega
        rcases ih bs with hc | hc
        · left; simp [lexLe, hnx, hny, hc]
        · right; simp [lexLe, hnx, hny, hc]
      · right
        simp [lexLe, h]

theorem lexLe_trans : ∀ a b c : List Char,
    lexLe a b = true → lexLe b c = true → lexLe a c = true := by
  intro a
  induction a with
  | nil => intro b c _ _; rfl
  | cons x as ih =>
    intro b c hab hbc
    cases b with
    | nil => simp [lexLe] at hab
    | cons y bs =>
      cases c with
      | nil => simp [lexLe] at hbc
      | cons z cs =>
        simp only [lexLe] at hab hbc ⊢
        by_cases hxy : x.toNat < y.toNat
        · by_cases hyz : y.toNat < z.toNat
          · simp [show x.toNat < z.toNat by omega]
          · by_cases hzy : z.toNat < y.toNat
            · simp [hyz, hzy] at hbc
            · simp [show x.toNat < z.toNat by omega]
        · by_cases hyx : y.toNat < x.toNat
          · simp [hxy, hyx] at hab
          · by_cases hyz : y.toNat < z.toNat
            · simp [show x.toNat < z.toNat by omega]
            · by_cases hzy : z.toNat < y.toNat
              · simp [hyz, hzy] at hbc
              · have hxz : ¬ x.toNat < z.toNat := by omega
                have hzx : ¬ z.toNat < x.toNat := by omega
                simp only [hxy, hyx, if_false] at hab
                simp only [hyz, hzy, if_false] at hbc
                simp only [hxz, hzx, if_false]
                exact ih bs cs hab hbc

/-- Model of `get_rule_links` (lines 237-274): run the pagination loop, then
`sorted({re.sub(r"^https?://[^/]+", "", u) for u in links})` — the distinct
normalized paths in sorted order. -/
def getRuleLinks (pages : List (Option (List String))) : List String :=
  List.insertionSort (fun a b => strLe a b = true)
    (Dedup.dedupFirst (((goTrace pages []).flatten).map stripDomainStr))

/-- The first-seen order of the normalized URLs, for comparison with the
returned order. -/
def firstSeenOrder (pages : List (Option (List String))) : List String :=
  Dedup.dedupFirst (((goTrace pages []).flatten).map stripDomainStr)

end Sonar

namespace Sem

/-!
Model of the semaphore-bounded fetch discipline shared by
`SonarRuleScraper._fetch` (`async with self.semaphore:` wrapping
`self.session.get(url)`, lines 221-234) and `scrape_language`'s
`fetch_and_parse` (`async with sem:` wrapping the fetch, lines 292-303).

Each work item's fetch task is a small state machine: it is `pending`
before the `async with` statement, `inFlight` from semaphore acquisition
(which precedes the HTTP request) until the request finishes, and `done`
afterwards — `async with` releases the semaphore on exit whether the body
succeeded or raised, so `release` covers both outcomes via the `ok` flag.
The scheduler may interleave acquisitions and completions arbitrarily.
-/

/-- Phase of one fetch task. -/
inductive TaskPhase
  | pending
  | inFlight
  | done (ok : Bool)

/-- Global state: the semaphore's counter and the phase of every task. -/
structure HarvestState where
  sem : Nat
  tasks : List TaskPhase

/-- One scheduler step: a pending task acquires the semaphore (only when the
counter is positive) and issues its request, or an in-flight task finishes
(successfully or not) and releases the semaphore. -/
inductive HStep : HarvestState → HarvestState → Prop
  | acquire (s : HarvestState) (i : Nat)
      (hp : s.tasks.get? i = some TaskPhase.pending) (hs : 0 < s.sem) :
      HStep s (HarvestState.mk (s.sem - 1) (s.tasks.set i TaskPhase.inFlight))
  | release (s : HarvestState) (i : Nat) (ok : Bool)
      (hp : s.tasks.get? i = some TaskPhase.inFlight) :
      HStep s (HarvestState.mk (s.sem + 1) (s.tasks.set i (TaskPhase.done ok)))

/-- Start of a harvest run: `asyncio.Semaphore(concurrency)` full, `n` work
items all pending. -/
def initState (C n : Nat) : HarvestState :=
  HarvestState.mk C (List.replicate n TaskPhase.pending)

/-- States reachable during a run with concurrency limit `C` over `n` items. -/
inductive Reach (C n : Nat) : HarvestState → Prop
  | init : Reach C n (initState C n)
  | step (s s' : HarvestState) : Reach C n s → HStep s s' → Reach C n s'

/-- Whether a task currently has an HTTP request in flight. -/
def isInFlight : TaskPhase → Bool
  | TaskPhase.inFlight => true
  | _ => false

/-- Number of fetch operations in flight. -/
def inFlightCount (s : HarvestState) : Nat := s.tasks.countP isInFlight

theorem countP_set (p : TaskPhase → Bool) (l : List TaskPhase) (i : Nat)
    (a b : TaskPhase) (h : l.get? i = some a) :
    (l.set i b).countP p + (if p a then 1 else 0) =
      l.countP p + (if p b then 1 else 0) := by
  induction l generalizing i with
  | nil => simp at h
  | cons x t ih =>
    cases i with
    | zero =>
      simp only [List.get?] at h
      injection h with h
      subst h
      simp only [List.set, List.countP_cons]
      omega
    | succ j =>
      simp only [List.get?] at h
      simp only [List.set, List.countP_cons]
      have := ih j h
      omega

theorem countP_replicate_pending (n : Nat) :
    (List.replicate n TaskPhase.pending).countP isInFlight = 0 := by
  induction n with
  | zero => simp
  | succ m ih => simp [List.replicate, List.countP_cons, ih, isInFlight]

theorem reach_invariant (C n : Nat) (s : HarvestState) (h : Reach C n s) :
    inFlightCount s + s.sem = C := by
  induction h with
  | init => simp [inFlightCount, initState, countP_replicate_pending]
  | step s s' _ hstep ih =>
    cases hstep with
    | acquire i hp hs =>
      have hc := countP_set isInFlight s.tasks i TaskPhase.pending TaskPhase.inFlight hp
      simp only [inFlightCount] at ih ⊢
      simp [isInFlight] at hc
      omega
    | release i ok hp =>
      have hc := countP_set isInFlight s.tasks i TaskPhase.inFlight (TaskPhase.done ok) hp
      simp only [inFlightCount] at ih ⊢
      simp [isInFlight] at hc
      omega

end Sem

/-- Claim C9: in every per-category JSON document the scrapers produce
(`c.py` lines 164-168 and `check.py` lines 204-208), the `total_rules`
field equals the length of the `rules` sequence in the same document, for
every possible list of collected records (hence for every possible set of
succeeded and failed items). -/
theorem c9_total_rules_eq_length :
    ∀ (category : String) (rules_data rules : List CheckC.CRule),
      (CheckC.cFinalJson category rules_data).total_rules =
        (CheckC.cFinalJson category rules_data).rules.length ∧
      (CheckC.checkFinalJson category rules).total_rules =
        (CheckC.checkFinalJson category rules).rules.length := by
  intro category rules_data rules
  exact ⟨rfl, rfl⟩

/-- Claim C2 counterexample: the final write of `c.py`'s `scrape` (lines
170-172; `check.py`'s combined write at lines 249-255 has the same shape)
opens the target path directly and streams the JSON into it.  Interrupted
after the first chunk, the target holds neither the previous content `old`
nor the new content `abcd`, so this persistence operation is not atomic —
refuting the claim that every persistence operation writes to a temp file
and atomically renames. -/
theorem c2_direct_write_not_atomic :
    ¬ Store.AtomicSave (Store.directSaveSteps ["ab", "cd"]) "old"
        (Store.content ["ab", "cd"]) := by
  intro h
  have h2 := h 2
  revert h2
  decide

/-- Claim C2 (amended): the sonar scraper's `_save` (lines 382-386) — used
for both the periodic checkpoint saves and the final write — writes the
serialized batch to a temp file and atomically renames it onto the target,
so at every interruption point the target holds either the previous or the
new complete content, and the finished save leaves exactly the new
content; the direct final writes of `c.py` and `check.py` do not follow
this discipline and are not atomic. -/
theorem c2_save_amended :
    (∀ (chunks : List String) (old : String),
        Store.AtomicSave (Store.sonarSaveSteps chunks) old (Store.content chunks) ∧
        Store.content ((Store.runSteps (Store.FS.mk [old] [])
          (Store.sonarSaveSteps chunks)).target) = Store.content chunks) ∧
    ¬ Store.AtomicSave (Store.directSaveSteps ["ab", "cd"]) "old"
        (Store.content ["ab", "cd"]) := by
  refine ⟨fun chunks old => ⟨Store.sonar_save_atomic chunks old,
    Store.sonar_save_final chunks old⟩, ?_⟩
  intro h
  have h2 := h 2
  revert h2
  decide

/-- Claim C4: for every URL outcome and every failure mode — raised network
error, raised timeout, or non-2xx HTTP status — none of the three
page-fetch operations (`pmd_test.py` `fetch`, `sonar_rule_scraper.py`
`_fetch`, `c.py`/`check.py` `fetch_soup`) lets an exception escape its
boundary: each returns `Except.ok` always, and returns the failure value
`none` on every failure mode, so one item's fetch failure cannot abort the
batch. -/
theorem c4_fetch_never_raises {Soup : Type} (soupOf : String → Soup)
    (o : Fetch.NetOutcome) :
    ((∃ r, Fetch.pmdFetch o = Except.ok r) ∧
     (∃ r, Fetch.sonarFetch o = Except.ok r) ∧
     (∃ r, Fetch.fetchSoup soupOf o = Except.ok r)) ∧
    (∀ e, Fetch.pmdFetch (Fetch.NetOutcome.raised e) = Except.ok none ∧
          Fetch.sonarFetch (Fetch.NetOutcome.raised e) = Except.ok none ∧
          Fetch.fetchSoup soupOf (Fetch.NetOutcome.raised e) = Except.ok none) ∧
    (∀ s b, s ≠ 200 →
        Fetch.pmdFetch (Fetch.NetOutcome.resp s b) = Except.ok none ∧
        Fetch.sonarFetch (Fetch.NetOutcome.resp s b) = Except.ok none ∧
        Fetch.fetchSoup soupOf (Fetch.NetOutcome.resp s b) = Except.ok none) := by
  refine ⟨?_, ?_, ?_⟩
  · cases o with
    | resp s b =>
      by_cases h : s = 200 <;>
        simp [Fetch.pmdFetch, Fetch.sonarFetch, Fetch.fetchSoup, Fetch.httpGet, h]
    | raised e =>
      cases e <;>
        simp [Fetch.pmdFetch, Fetch.sonarFetch, Fetch.fetchSoup, Fetch.httpGet]
  · intro e
    cases e <;>
      simp [Fetch.pmdFetch, Fetch.sonarFetch, Fetch.fetchSoup, Fetch.httpGet]
  · intro s b h
    simp [Fetch.pmdFetch, Fetch.sonarFetch, Fetch.fetchSoup, Fetch.httpGet, h]

/-- Claim C4 witness: at the concrete failure outcome HTTP 404 the three
fetchers return the failure value without raising. -/
theorem c4_fetch_never_raises_witness :
    (404 : Nat) ≠ 200 ∧
    Fetch.pmdFetch (Fetch.NetOutcome.resp 404 "nf") = Except.ok none ∧
    Fetch.sonarFetch (Fetch.NetOutcome.resp 404 "nf") = Except.ok none ∧
    Fetch.fetchSoup (fun (_ : String) => ()) (Fetch.NetOutcome.resp 404 "nf") =
      Except.ok none := by
  refine ⟨by decide, ?_⟩
  exact (c4_fetch_never_raises (fun (_ : String) => ())
    (Fetch.NetOutcome.resp 404 "nf")).2.2 404 "nf" (by decide)

/-- Claim C1: for every configured concurrency limit `C ≥ 1` and every
number `n` of work items, in every state reachable during a harvest run at
most `C` fetch operations are simultaneously in flight: a task enters the
in-flight phase only by acquiring the semaphore before issuing its HTTP
request, and releases it on completion, success or failure. -/
theorem c1_bounded_concurrency (C n : Nat) (s : Sem.HarvestState)
    (hC : 1 ≤ C) (h : Sem.Reach C n s) : Sem.inFlightCount s ≤ C := by
  have hinv := Sem.reach_invariant C n s h
  omega

/-- Claim C1 witness: with limit 2 over 3 items, the state reached after one
acquisition step satisfies the bound. -/
theorem c1_bounded_concurrency_witness :
    1 ≤ 2 ∧
    Sem.inFlightCount (Sem.HarvestState.mk 1
      [Sem.TaskPhase.inFlight, Sem.TaskPhase.pending, Sem.TaskPhase.pending]) ≤ 2 := by
  refine ⟨by decide, ?_⟩
  exact c1_bounded_concurrency 2 3 _ (by decide)
    (Sem.Reach.step _ _ Sem.Reach.init
      (Sem.HStep.acquire (Sem.initState 2 3) 0 rfl (by decide)))

/-- Claim C8 counterexample: when `c.py`'s index fetch fails, no work items
can be constructed at all, yet `scrape` (lines 146-150) only logs an error
and returns `{}`, and the process terminates with exit code 0 — refuting
the claim that the process exits non-zero exactly when initial work-item
discovery cannot be constructed. -/
theorem c8_exit_counterexample :
    (CheckC.cMain "naming" none (fun _ => none)).exitCode = 0 ∧
    (CheckC.cMain "naming" none (fun _ => none)).output = none :=
  ⟨rfl, rfl⟩

/-- Claim C8 (amended): in `pmd_test.py` the process exits non-zero exactly
when the normalized language input is empty (printing a diagnostic first);
per-item fetch or parse failures never affect its exit code.  In `c.py`,
by contrast, even a failed index fetch (no work items at all) terminates
with exit code 0 after logging — discovery failure is not fatal there. -/
theorem c8_exit_amended :
    ∀ (arg : String) (index index2 : Option (Option (List (String × String))))
      (rs rs2 : String → Option (List Pmd.PmdRule)) (cat : String)
      (cIndex : Option (List (String × String)))
      (cDetails : String × String → Option CheckC.CRule),
      ((Pmd.pmdMain arg index rs).exitCode =
        if Pmd.normLang arg = "" then 1 else 0) ∧
      (Pmd.pmdMain arg index rs).exitCode = (Pmd.pmdMain arg index2 rs2).exitCode ∧
      (Pmd.normLang arg = "" → (Pmd.pmdMain arg index rs).diag = true) ∧
      (CheckC.cMain cat cIndex cDetails).exitCode = 0 := by
  intro arg index index2 rs rs2 cat cIndex cDetails
  by_cases h : Pmd.normLang arg = "" <;>
    simp [Pmd.pmdMain, CheckC.cMain, h]

/-- Claim C8 witness: the blank input `" "` normalizes to the empty
language, and there the PMD entry point emits its diagnostic. -/
theorem c8_exit_amended_witness :
    Pmd.normLang " " = "" ∧
    (Pmd.pmdMain " " none (fun _ => none)).diag = true := by
  refine ⟨by decide, ?_⟩
  exact (c8_exit_amended " " none none (fun _ => none) (fun _ => none)
    "x" none (fun _ => none)).2.2.1 (by decide)

/-- Claim C5: in `scrape_language` (lines 271-312), if index-page discovery
yields zero items — the index page is unreachable, or a TOC is found but no
rulesets are extracted from it — the detected work set equals the
configured static fallback list `FALLBACK_RULESETS`; and (for any
discovery outcome) every fallback key appears as a key of the final
`rulesets` mapping, even when its section yields zero records. -/
theorem c5_fallback (language : String)
    (index : Option (Option (List (String × String))))
    (rsResult : String → Option (List Pmd.PmdRule))
    (h : index = none ∨
      ∃ toc, index = some toc ∧ Pmd.parseIndexForRulesets toc = []) :
    Pmd.detectedOf index = Pmd.FALLBACK_RULESETS ∧
    ∀ k ∈ Pmd.FALLBACK_RULESETS,
      k ∈ (Pmd.scrapeLanguage language index rsResult).rulesets.map Prod.fst := by
  constructor
  · rcases h with rfl | ⟨toc, rfl, hparse⟩
    · rfl
    · simp [Pmd.detectedOf, hparse]
  · intro k hk
    have hmem := Pmd.mem_keys_foldl_setdefault Pmd.FALLBACK_RULESETS
      ((Pmd.detectedOf index).map (fun rs =>
        (rs, match rsResult rs with
             | none => []
             | some rules => rules))) k (Or.inr hk)
    simpa [Pmd.scrapeLanguage] using hmem

/-- Claim C5 witness: with the index page unreachable, the detected set is
the fallback list and the fallback key `multithreading` is a key of the
final output even though every section yields zero records. -/
theorem c5_fallback_witness :
    Pmd.detectedOf none = Pmd.FALLBACK_RULESETS ∧
    "multithreading" ∈
      (Pmd.scrapeLanguage "java" none (fun _ => none)).rulesets.map Prod.fst := by
  refine ⟨(c5_fallback "java" none (fun _ => none) (Or.inl rfl)).1, ?_⟩
  exact (c5_fallback "java" none (fun _ => none) (Or.inl rfl)).2
    "multithreading" (by decide)

theorem sonar_processOne_url (soupOf : String → Sonar.SonarSoup)
    (htmlOpt : Option String) (u : String) (r : Sonar.SRecord)
    (h : Sonar.processOne soupOf htmlOpt u = some r) :
    r.url = Sonar.SBASE ++ u := by
  cases htmlOpt with
  | none => simp [Sonar.processOne, Sonar.processOneB] at h
  | some s =>
    by_cases hs : s = ""
    · simp [Sonar.processOne, Sonar.processOneB, hs] at h
    · simp [Sonar.processOne, Sonar.processOneB, hs, Sonar.dictFields] at h
      rw [← h]
      rfl

theorem sonar_runModel_from_empty (soupOf : String → Sonar.SonarSoup)
    (fetch : String → Option String) (links : List String) :
    Sonar.runModel soupOf fetch links [] =
      links.filterMap (fun u => Sonar.processOne soupOf (fetch (Sonar.SBASE ++ u)) u) := by
  unfold Sonar.runModel Sonar.pendingOf
  simp

/-- Claim C3: `run` (lines 337-380) processes exactly the discovered paths
whose full URL is not among the loaded records' `url` fields; the loaded
records form an unchanged initial segment of the result; and — the fetch
outcomes being unchanged — resuming from the output of a completed run
appends nothing, so running the harvester twice over an unchanged input
set yields the same completed list and an identical final JSON document as
running it once. -/
theorem c3_resume_idempotent (soupOf : String → Sonar.SonarSoup)
    (fetch : String → Option String) (links : List String)
    (loaded : List Sonar.SRecord) :
    (∀ u, u ∈ Sonar.pendingOf links loaded ↔
        (u ∈ links ∧ (Sonar.SBASE ++ u) ∉ loaded.map Sonar.SRecord.url)) ∧
    (Sonar.runModel soupOf fetch links loaded).take loaded.length = loaded ∧
    Sonar.runModel soupOf fetch links (Sonar.runModel soupOf fetch links []) =
      Sonar.runModel soupOf fetch links [] ∧
    Sonar.jsonOfResults
        (Sonar.runModel soupOf fetch links (Sonar.runModel soupOf fetch links [])) =
      Sonar.jsonOfResults (Sonar.runModel soupOf fetch links []) := by
  have hpend : ∀ u, u ∈ Sonar.pendingOf links loaded ↔
      (u ∈ links ∧ (Sonar.SBASE ++ u) ∉ loaded.map Sonar.SRecord.url) := by
    intro u
    simp [Sonar.pendingOf, List.mem_filter]
  have hidem : Sonar.runModel soupOf fetch links (Sonar.runModel soupOf fetch links []) =
      Sonar.runModel soupOf fetch links [] := by
    set R1 := Sonar.runModel soupOf fetch links [] with hR1
    have hR1eq : R1 = links.filterMap
        (fun u => Sonar.processOne soupOf (fetch (Sonar.SBASE ++ u)) u) := by
      rw [hR1, sonar_runModel_from_empty]
    have hnil : (Sonar.pendingOf links R1).filterMap
        (fun u => Sonar.processOne soupOf (fetch (Sonar.SBASE ++ u)) u) = [] := by
      rw [List.filterMap_eq_nil_iff]
      intro u hu
      rcases List.mem_filter.mp hu with ⟨hul, hcond⟩
      have hnot : (Sonar.SBASE ++ u) ∉ R1.map Sonar.SRecord.url := by
        simpa using hcond
      by_contra hne
      rcases Option.ne_none_iff_exists'.mp hne with ⟨r, hr⟩
      have hurl := sonar_processOne_url soupOf (fetch (Sonar.SBASE ++ u)) u r hr
      have hrmem : r ∈ R1 := by
        rw [hR1eq]
        exact List.mem_filterMap.mpr ⟨u, hul, hr⟩
      exact hnot (hurl ▸ List.mem_map_of_mem Sonar.SRecord.url hrmem)
    unfold Sonar.runModel
    rw [hnil, List.append_nil]
  refine ⟨hpend, ?_, hidem, congrArg Sonar.jsonOfResults hidem⟩
  unfold Sonar.runModel
  exact List.take_left loaded _

theorem sonar_goTrace_continued_ge10 (pages : List (Option (List String)))
    (seen : List String) :
    ∀ i, i + 1 < (Sonar.goTrace pages seen).length →
      10 ≤ (((Sonar.goTrace pages seen).get? i).getD []).length := by
  induction pages generalizing seen with
  | nil => intro i hi; simp [Sonar.goTrace] at hi
  | cons pg rest ih =>
    cases pg with
    | none => intro i hi; simp [Sonar.goTrace] at hi
    | some hrefs =>
      intro i hi
      by_cases h : (Sonar.collectNew seen hrefs).2.length < 10
      · simp [Sonar.goTrace, h] at hi
      · simp only [Sonar.goTrace, if_neg h] at hi ⊢
        cases i with
        | zero =>
          simp only [List.get?, Option.getD_some]
          omega
        | succ j =>
          simp only [List.length_cons] at hi
          simp only [List.get?]
          exact ih (Sonar.collectNew seen hrefs).1 j (by omega)

theorem sonar_goTrace_all10_stops_on_failed_fetch
    (pages : List (Option (List String))) (seen : List String)
    (hall : ∀ f ∈ Sonar.goTrace pages seen, 10 ≤ f.length) :
    Sonar.fetchRes pages (Sonar.goTrace pages seen).length = none := by
  induction pages generalizing seen with
  | nil => rfl
  | cons pg rest ih =>
    cases pg with
    | none => rfl
    | some hrefs =>
      by_cases h : (Sonar.collectNew seen hrefs).2.length < 10
      · exfalso
        have hmem : (Sonar.collectNew seen hrefs).2 ∈ Sonar.goTrace (some hrefs :: rest) seen := by
          simp [Sonar.goTrace, h]
        have := hall _ hmem
        omega
      · simp only [Sonar.goTrace, if_neg h, List.length_cons]
        have hall' : ∀ f ∈ Sonar.goTrace rest (Sonar.collectNew seen hrefs).1,
            10 ≤ f.length := by
          intro f hf
          refine hall f ?_
          simp only [Sonar.goTrace, if_neg h]
          exact List.mem_cons_of_mem _ hf
        simpa [Sonar.fetchRes] using ih (Sonar.collectNew seen hrefs).1 hall'

theorem sonar_goTrace_length_le (pages : List (Option (List String)))
    (seen : List String) :
    (Sonar.goTrace pages seen).length ≤ pages.length := by
  induction pages generalizing seen with
  | nil => simp [Sonar.goTrace]
  | cons pg rest ih =>
    cases pg with
    | none => simp [Sonar.goTrace]
    | some hrefs =>
      by_cases h : (Sonar.collectNew seen hrefs).2.length < 10
      · simp [Sonar.goTrace, h]
      · simp only [Sonar.goTrace, if_neg h, List.length_cons]
        have := ih (Sonar.collectNew seen hrefs).1
        omega

/-- Claim C7: the pagination loop of `get_rule_links` (lines 242-269)
fetches `base_url?page=N` for N = 1, 2, 3, ... in order; every successfully
fetched page other than the last one of the run yielded at least 10 new
links (so a page with at least 10 new links always causes the next page to
be fetched); and if every fetched page yielded at least 10 new links, the
run stopped only because the next page's fetch returned no response.  A
page with fewer than 10 new links (including zero) is always the last
fetched one. -/
theorem c7_pagination (pages : List (Option (List String))) :
    (∀ i, i + 1 < (Sonar.goTrace pages []).length →
        10 ≤ (((Sonar.goTrace pages []).get? i).getD []).length) ∧
    ((∀ f ∈ Sonar.goTrace pages [], 10 ≤ f.length) →
        Sonar.fetchRes pages (Sonar.goTrace pages []).length = none) ∧
    (Sonar.goTrace pages []).length ≤ pages.length :=
  ⟨sonar_goTrace_continued_ge10 pages [],
   fun hall => sonar_goTrace_all10_stops_on_failed_fetch pages [] hall,
   sonar_goTrace_length_le pages []⟩

/-- Page lists for the C7 witness: a first page with 10 fresh links
followed by a short page, and a single full page with nothing after it. -/
def c7pagesA : List (Option (List String)) :=
  [some ["/a0", "/a1", "/a2", "/a3", "/a4", "/a5", "/a6", "/a7", "/a8", "/a9"],
   some ["/b0", "/b1"]]

/-- Single-full-page input for the C7 witness. -/
def c7pagesB : List (Option (List String)) :=
  [some ["/a0", "/a1", "/a2", "/a3", "/a4", "/a5", "/a6", "/a7", "/a8", "/a9"]]

/-- Claim C7 witness: on the concrete page lists, the first page of a
continued run has at least 10 new links, and a run whose every page was
full stopped on a failed fetch of the next page. -/
theorem c7_pagination_witness :
    (0 + 1 < (Sonar.goTrace c7pagesA []).length ∧
      10 ≤ (((Sonar.goTrace c7pagesA []).get? 0).getD []).length) ∧
    (∀ f ∈ Sonar.goTrace c7pagesB [], 10 ≤ f.length) ∧
    Sonar.fetchRes c7pagesB (Sonar.goTrace c7pagesB []).length = none := by
  refine ⟨⟨by decide, (c7_pagination c7pagesA).1 0 (by decide)⟩, by decide, ?_⟩
  exact (c7_pagination c7pagesB).2.1 (by decide)

/-- Claim C6 counterexample: for the sonar link discoverer
(`get_rule_links`, lines 237-274), a listing page presenting `RSPEC-2`
before `RSPEC-1` is returned sorted — `RSPEC-1` first — not in first-seen
order, because the function ends with
`sorted({re.sub(r"^https?://[^/]+", "", u) for u in links})`; this refutes
the claim that the discoverer's output lists urls in first-seen order. -/
theorem c6_order_counterexample :
    Sonar.getRuleLinks [some ["/py/RSPEC-2/", "/py/RSPEC-1/"]] =
      ["/py/RSPEC-1/", "/py/RSPEC-2/"] ∧
    Sonar.firstSeenOrder [some ["/py/RSPEC-2/", "/py/RSPEC-1/"]] =
      ["/py/RSPEC-2/", "/py/RSPEC-1/"] ∧
    ¬ (Sonar.getRuleLinks [some ["/py/RSPEC-2/", "/py/RSPEC-1/"]]).Pairwise
        (fun a b =>
          Dedup.idxOf (Sonar.firstSeenOrder [some ["/py/RSPEC-2/", "/py/RSPEC-1/"]]) a <
          Dedup.idxOf (Sonar.firstSeenOrder [some ["/py/RSPEC-2/", "/py/RSPEC-1/"]]) b) := by
  refine ⟨by decide, by decide, ?_⟩
  intro h
  rw [show Sonar.getRuleLinks [some ["/py/RSPEC-2/", "/py/RSPEC-1/"]] =
      ["/py/RSPEC-1/", "/py/RSPEC-2/"] from by decide] at h
  have hlt := List.rel_of_pairwise_cons h (List.mem_cons_self _ _)
  revert hlt
  decide

/-- Claim C6 (amended): both discoverers emit each normalized url at most
once; the PMD index discoverer (`parse_index_for_rulesets`, lines 101-127)
lists them in the order they were first seen among the collected labels,
while the sonar discoverer (`get_rule_links`, lines 237-274) deduplicates
while collecting but returns the normalized urls in sorted order, not
first-seen order. -/
theorem c6_dedup_order_amended (anchors : List (String × String))
    (pages : List (Option (List String))) :
    (Pmd.parseIndexForRulesets (some anchors)).Nodup ∧
    (∀ x, x ∈ Pmd.parseIndexForRulesets (some anchors) ↔ x ∈ Pmd.foundOf anchors) ∧
    (Pmd.parseIndexForRulesets (some anchors)).Pairwise
      (fun a b => Dedup.idxOf (Pmd.foundOf anchors) a <
        Dedup.idxOf (Pmd.foundOf anchors) b) ∧
    (Sonar.getRuleLinks pages).Nodup ∧
    (Sonar.getRuleLinks pages).Pairwise
      (fun a b => Sonar.strLe a b = true ∧ a ≠ b) ∧
    (∀ x, x ∈ Sonar.getRuleLinks pages ↔ x ∈ Sonar.firstSeenOrder pages) := by
  haveI htot : IsTotal String (fun a b => Sonar.strLe a b = true) :=
    ⟨fun a b => Sonar.lexLe_total a.toList b.toList⟩
  haveI htr : IsTrans String (fun a b => Sonar.strLe a b = true) :=
    ⟨fun a b c => Sonar.lexLe_trans a.toList b.toList c.toList⟩
  refine ⟨Dedup.nodup_dedupFirst _, fun x => Dedup.mem_dedupFirst _ x,
    Dedup.pairwise_dedupFirst _, ?_, ?_, ?_⟩
  · exact (List.perm_insertionSort _ _).nodup_iff.mpr (Dedup.nodup_dedupFirst _)
  · have hs : (Sonar.getRuleLinks pages).Pairwise
        (fun a b : String => Sonar.strLe a b = true) :=
      List.sorted_insertionSort _ _
    have hn : (Sonar.getRuleLinks pages).Pairwise (fun a b : String => a ≠ b) :=
      (List.perm_insertionSort _ _).nodup_iff.mpr (Dedup.nodup_dedupFirst _)
    exact hs.and hn
  · intro x
    exact (List.perm_insertionSort _ _).mem_iff

theorem string_mk_ne_empty (l : List Char) (h : l ≠ []) : String.mk l ≠ "" :=
  fun hc => h (congrArg String.data hc)

theorem sonar_rspecAt_ne_nil (l m : List Char) (h : Sonar.rspecAt l = some m) :
    m ≠ [] := by
  unfold Sonar.rspecAt at h
  by_cases hpre : "RSPEC-".toList.isPrefixOf l = true
  · simp only [hpre, if_true] at h
    by_cases hds : (List.takeWhile Char.isDigit (List.drop 6 l)).isEmpty = true
    · simp [hds] at h
    · simp only [hds, if_false] at h
      injection h with h
      rw [← h]
      simp
  · rw [if_neg hpre] at h
    exact absurd h (by simp)

theorem sonar_rspecSearch_ne_nil (l m : List Char)
    (h : Sonar.rspecSearch l = some m) : m ≠ [] := by
  induction l with
  | nil => exact absurd h (by simp [Sonar.rspecSearch])
  | cons c rest ih =>
    unfold Sonar.rspecSearch at h
    cases hat : Sonar.rspecAt (c :: rest) with
    | some m' =>
      rw [hat] at h
      injection h with h
      exact h ▸ sonar_rspecAt_ne_nil (c :: rest) m' hat
    | none =>
      rw [hat] at h
      exact ih h

theorem mem_dropWhile_of_not (p : Char → Bool) (l : List Char) (c : Char)
    (hc : p c = false) (h : c ∈ l) : c ∈ l.dropWhile p := by
  induction l with
  | nil => simp at h
  | cons a t ih =>
    by_cases hpa : p a = true
    · rw [List.dropWhile_cons_of_pos hpa]
      rcases List.mem_cons.mp h with rfl | h
      · rw [hpa] at hc; simp at hc
      · exact ih h
    · rw [List.dropWhile_cons_of_neg hpa]
      exact h

theorem head_dropWhile_false (p : Char → Bool) (l : List Char) (c : Char)
    (t : List Char) (h : l.dropWhile p = c :: t) : p c = false := by
  induction l with
  | nil => simp at h
  | cons a u ih =>
    by_cases hpa : p a = true
    · rw [List.dropWhile_cons_of_pos hpa] at h
      exact ih h
    · rw [List.dropWhile_cons_of_neg hpa] at h
      injection h with h1 _
      rw [← h1]
      exact Bool.eq_false_iff.mpr hpa

theorem sonar_lastSegment_stripSlashes_ne_nil (l : List Char)
    (h : ∃ c ∈ l, c ≠ '/') : Sonar.lastSegment (Sonar.stripSlashes l) ≠ [] := by
  rcases h with ⟨c, hcl, hc⟩
  have hpc : (fun d => decide (d = '/')) c = false := by
    simp [hc]
  have h1 : c ∈ l.dropWhile (fun d => decide (d = '/')) :=
    mem_dropWhile_of_not _ l c hpc hcl
  have h2 : c ∈ (l.dropWhile (fun d => decide (d = '/'))).reverse :=
    List.mem_reverse.mpr h1
  have h3 : c ∈ ((l.dropWhile (fun d => decide (d = '/'))).reverse.dropWhile
      (fun d => decide (d = '/'))) :=
    mem_dropWhile_of_not _ _ c hpc h2
  have hrev : (Sonar.stripSlashes l).reverse =
      (l.dropWhile (fun d => decide (d = '/'))).reverse.dropWhile
        (fun d => decide (d = '/')) := by
    unfold Sonar.stripSlashes
    rw [List.reverse_reverse]
  rcases List.exists_cons_of_ne_nil (List.ne_nil_of_mem h3) with ⟨c0, t0, hct⟩
  have hc0 : c0 ≠ '/' := by
    have hfalse := head_dropWhile_false (fun d => decide (d = '/')) _ c0 t0 hct
    simpa using hfalse
  unfold Sonar.lastSegment
  rw [hrev, hct]
  simp [List.takeWhile_cons, hc0]

/-- Claim C10 counterexample: `_parse_rule_html` applied to the url path
`""` (no `RSPEC-` match, and the strip/split fallback of line 282 yields
the empty string) produces a record whose `rule_id` is empty — refuting the
claim that `rule_id` is always non-empty for every input HTML string and
url path. -/
theorem c10_parse_counterexample :
    (Sonar.parseRuleHtml (Sonar.SonarSoup.mk none [] [] none []) "").rule_id = "" := by
  decide

/-- Claim C10 (amended): for every soup and url path, `_parse_rule_html`
always returns a record (never `None`) in which `description`, `rule_type`
and `impact` are non-empty (placeholders `"Description not available."`,
`"Unknown"`, `["Unspecified"]` substitute for absent content), and
`rule_id` is non-empty whenever the url path contains at least one
non-slash character (it is empty for degenerate paths such as `""` or
`"///"`); consequently the parse-failure branch of `process_one` is
unreachable for every fetch outcome. -/
theorem c10_parse_amended (soupOf : String → Sonar.SonarSoup)
    (soup : Sonar.SonarSoup) (path : String) (htmlOpt : Option String) :
    (Sonar.parseRuleHtml soup path).description ≠ "" ∧
    (Sonar.parseRuleHtml soup path).rule_type ≠ "" ∧
    (Sonar.parseRuleHtml soup path).impact ≠ [] ∧
    ((∃ c ∈ path.toList, c ≠ '/') → (Sonar.parseRuleHtml soup path).rule_id ≠ "") ∧
    Sonar.processOneB soupOf htmlOpt path ≠ Sonar.POut.parseSkip := by
  refine ⟨?_, ?_, ?_, ?_, ?_⟩
  · simp only [Sonar.parseRuleHtml]
    split
    · decide
    · assumption
  · simp only [Sonar.parseRuleHtml]
    cases soup.ruleTypeText with
    | none => decide
    | some s =>
      simp only
      split
      · decide
      · assumption
  · simp only [Sonar.parseRuleHtml]
    split
    · decide
    · assumption
  · intro hpath
    simp only [Sonar.parseRuleHtml]
    unfold Sonar.ruleIdChars
    cases hr : Sonar.rspecSearch path.toList with
    | some m =>
      exact string_mk_ne_empty m (sonar_rspecSearch_ne_nil path.toList m hr)
    | none =>
      exact string_mk_ne_empty _ (sonar_lastSegment_stripSlashes_ne_nil path.toList hpath)
  · cases htmlOpt with
    | none => simp [Sonar.processOneB]
    | some h =>
      by_cases hs : h = ""
      · simp [Sonar.processOneB, hs]
      · simp [Sonar.processOneB, hs, Sonar.dictFields]

/-- Claim C10 witness: the path `/py/x` contains a non-slash character and
its parsed record has a non-empty `rule_id`. -/
theorem c10_parse_amended_witness :
    (∃ c ∈ ("/py/x" : String).toList, c ≠ '/') ∧
    (Sonar.parseRuleHtml (Sonar.SonarSoup.mk none [] [] none []) "/py/x").rule_id ≠ "" := by
  refine ⟨by decide, ?_⟩
  exact (c10_parse_amended (fun _ => Sonar.SonarSoup.mk none [] [] none [])
    (Sonar.SonarSoup.mk none [] [] none []) "/py/x" none).2.2.2.1 (by decide)
